/-
Verification of the emotion-timeline analysis pipeline
(`periodic-reflection-report/scripts/analyze_emotion_timeline.py`).

Shallow embedding conventions:
* Python `str` text values that are processed character-by-character are
  modelled as `List Char`; `date` values (only compared and copied) as `String`.
* Python `float` polarity/subjectivity values are modelled as exact rationals
  (`ℚ`); `round(x, 3)` is modelled as round-half-to-even at 3 decimals on the
  exact rational value.
* The two external capabilities are parameters: the translator is a function
  `List Char → Except Unit (List Char)` (an `Except.error` models a raised
  exception), the scorer a function `List Char → ℚ × ℚ` returning raw
  (polarity, subjectivity).
* `analyzeRecord` additionally returns the number of translator calls and of
  scorer calls made; the Python function performs these as side effects.
-/
import Mathlib

namespace EmotionTimeline

/-! ### Text utilities -/

/-- The ASCII whitespace characters recognised by Python's `str.strip()`. -/
def isPySpace (c : Char) : Bool :=
  c == ' ' || c == '\t' || c == '\n' || c == '\r' || c == '\x0b' || c == '\x0c'

/-- Python `str.strip()`: drop leading and trailing whitespace. -/
def strip (l : List Char) : List Char :=
  ((l.dropWhile isPySpace).reverse.dropWhile isPySpace).reverse

/-- Python `value.replace("<br>", "\n")`: left-to-right, non-overlapping. -/
def replaceBr : List Char → List Char
  | [] => []
  | '<' :: 'b' :: 'r' :: '>' :: rest => '\n' :: replaceBr rest
  | c :: rest => c :: replaceBr rest

/-- Python lexicographic (code-point) `<=` on strings, used by `list.sort`
with `key=lambda d: d.date`. -/
def lexLe : List Char → List Char → Bool
  | [], _ => true
  | _ :: _, [] => false
  | a :: as, b :: bs => if a < b then true else if b < a then false else lexLe as bs

/-! ### Chunker (`_chunk_text`) -/

/-- The slicing loop of `_chunk_text` for a chunk size of `c + 1`
(the source's loop `while start < len(text)` with `end = min(start + size, len)`,
appending `text[start:end]`; each iteration consumes `size` characters of the
remaining suffix).  A chunk size of `0` makes the Python loop diverge, so the
loop is only embedded for positive sizes. -/
def chunkLoop (c : Nat) : List Char → List (List Char)
  | [] => []
  | a :: rest => ((a :: rest).take (c + 1)) :: chunkLoop c ((a :: rest).drop (c + 1))
  termination_by l => l.length
  decreasing_by simp [List.length_drop]; omega

/-- Python `_chunk_text(text, chunk_size)`.  For `chunk_size = 0` (where Python
diverges) the loop branch returns `[]`; all claims assume a positive size. -/
def chunkText (text : List Char) (chunkSize : Nat) : List (List Char) :=
  if text.length ≤ chunkSize then [text]
  else match chunkSize with
    | 0 => []
    | c + 1 => chunkLoop c text

/-! ### Numeric model -/

/-- Python `round` to an integer: round-half-to-even on the exact value. -/
def pyRound (q : ℚ) : ℤ :=
  let f := ⌊q⌋
  let frac := q - f
  if frac < 1 / 2 then f
  else if 1 / 2 < frac then f + 1
  else if f % 2 = 0 then f else f + 1

/-- Python `round(x, 3)` on the exact rational value. -/
def round3 (q : ℚ) : ℚ := (pyRound (q * 1000) : ℚ) / 1000

/-- Python `max(-1.0, min(1.0, x))`. -/
def clampPolarity (q : ℚ) : ℚ := max (-1) (min 1 q)

/-- Python `max(0.0, min(1.0, x))`. -/
def clampSubjectivity (q : ℚ) : ℚ := max 0 (min 1 q)

/-! ### Data model -/

/-- The three sentiment labels returned by `_to_label`. -/
inductive Label where
  | positive
  | neutral
  | negative
deriving DecidableEq, Repr

/-- The fixed emotion vocabulary used by `_to_emotions`. -/
inductive Emotion where
  | joy
  | confidence
  | calm
  | frustration
  | anxiety
deriving DecidableEq, Repr

/-- The trend values produced by `summarize`. -/
inductive Trend where
  | improving
  | declining
  | stable
  | insufficient_data
deriving DecidableEq, Repr

/-- A value found under one of the four text keys of an input record:
the key may be absent, hold JSON `null`, or hold a string.  `record.get(k, "")`
yields `""` for an absent key; `_norm_text` maps every falsy value (`None`,
`""`) to `""`. -/
inductive FieldVal where
  | absent
  | null
  | str (s : List Char)
deriving DecidableEq

/-- An input record (a JSON mapping): the `date` key (absent or a string) and
the four recognised free-text fields. -/
structure Record where
  date : Option String
  experience : FieldVal
  reflection : FieldVal
  abstraction : FieldVal
  next_action : FieldVal

/-- The per-day analysis result (`DayEmotion` dataclass). -/
structure DayEmotion where
  date : String
  sentiment_score : ℚ
  sentiment_label : Label
  subjectivity : ℚ
  dominant_emotions : List Emotion
deriving DecidableEq, Repr

/-! ### Normalisation (`_norm_text`) and classification -/

/-- Models `_norm_text(record.get(k, ""))`: an absent key defaults to `""`; a falsy
value (`None` or `""`) yields `""`; otherwise `"<br>"` is replaced by a
newline. -/
def normField : FieldVal → List Char
  | .absent => []
  | .null => []
  | .str s => if s = [] then [] else replaceBr s

/-- Python `record.get("date", "")`. -/
def getDate (r : Record) : String := r.date.getD ""

/-- Python `"\n".join(_norm_text(record.get(k, "")) for k in (...)).strip()`. -/
def joinedOf (r : Record) : List Char :=
  strip (List.intercalate ['\n']
    [normField r.experience, normField r.reflection,
     normField r.abstraction, normField r.next_action])

/-- The classifier `_to_label`. -/
def toLabel (polarity : ℚ) : Label :=
  if polarity ≥ 2 / 10 then .positive
  else if polarity ≤ -(2 / 10) then .negative
  else .neutral

/-- The classifier `_to_emotions`. -/
def toEmotions (polarity subjectivity : ℚ) : List Emotion :=
  if polarity ≥ 45 / 100 then
    if subjectivity ≥ 45 / 100 then [.joy, .confidence] else [.calm, .confidence]
  else if polarity ≥ 15 / 100 then [.calm, .confidence]
  else if polarity ≤ -(45 / 100) then
    if subjectivity ≥ 45 / 100 then [.frustration, .anxiety] else [.anxiety, .calm]
  else if polarity ≤ -(15 / 100) then [.anxiety, .calm]
  else [.calm]

/-! ### Translation adapter (`_translate_ja_to_en`) -/

/-- The loop of `_translate_ja_to_en`: translate each chunk in order; a raised
exception (`Except.error`) aborts the loop.  Also returns the number of
translator invocations made. -/
def translateChunks (translate : List Char → Except Unit (List Char)) :
    List (List Char) → Except Unit (List (List Char)) × Nat
  | [] => (.ok [], 0)
  | c :: rest =>
    match translate c with
    | .error e => (.error e, 1)
    | .ok t =>
      let (r, n) := translateChunks translate rest
      (r.map (t :: ·), n + 1)

/-- Models `_translate_ja_to_en(text, translator)`: chunk with the default size 3000,
translate each chunk, join with `"\n"`.  Returns the result (or the propagated
exception) and the number of translator invocations. -/
def translateJaToEn (translate : List Char → Except Unit (List Char))
    (text : List Char) : Except Unit (List Char) × Nat :=
  let (r, n) := translateChunks translate (chunkText text 3000)
  (r.map (List.intercalate ['\n']), n)

/-! ### Per-record analysis (`analyze_record`) -/

/-- Models `analyze_record(record, translator)`.  Returns the `DayEmotion` together
with the number of translator invocations and of scorer invocations. -/
def analyzeRecord (translate : List Char → Except Unit (List Char))
    (score : List Char → ℚ × ℚ) (r : Record) : DayEmotion × Nat × Nat :=
  let date := getDate r
  let joined := joinedOf r
  if joined = [] then
    (⟨date, 0, .neutral, 0, [.calm]⟩, 0, 0)
  else
    let (tr, nTrans) := translateJaToEn translate joined
    let translated := match tr with
      | .ok t => t
      | .error _ => joined
    let (rawP, rawS) := score translated
    let polarity := clampPolarity rawP
    let subjectivity := clampSubjectivity rawS
    (⟨date, round3 polarity, toLabel polarity, round3 subjectivity,
      toEmotions polarity subjectivity⟩, nTrans, 1)

/-- The `DayEmotion` obtained by scoring a text directly (no translation):
clamp, classify, round — the tail of `analyze_record` applied to the raw
scores of the given text.  Used to state the translation-failure fallback. -/
def directScore (score : List Char → ℚ × ℚ) (date : String)
    (text : List Char) : DayEmotion :=
  let (rawP, rawS) := score text
  let polarity := clampPolarity rawP
  let subjectivity := clampSubjectivity rawS
  ⟨date, round3 polarity, toLabel polarity, round3 subjectivity,
    toEmotions polarity subjectivity⟩

/-- The text actually scored for a non-empty record: the translation result,
or the original text when the translation attempt raised. -/
def translatedText (translate : List Char → Except Unit (List Char))
    (text : List Char) : List Char :=
  match (translateJaToEn translate text).1 with
  | .ok t => t
  | .error _ => text

/-! ### Summariser (`summarize`) -/

/-- The `label_counts` dictionary, zero-initialised over the three labels. -/
structure LabelCounts where
  positive : Nat
  neutral : Nat
  negative : Nat
deriving DecidableEq, Repr

/-- Python `label_counts[d.sentiment_label] += 1`. -/
def bumpLabel (lc : LabelCounts) : Label → LabelCounts
  | .positive => { lc with positive := lc.positive + 1 }
  | .neutral => { lc with neutral := lc.neutral + 1 }
  | .negative => { lc with negative := lc.negative + 1 }

def countLabels (days : List DayEmotion) : LabelCounts :=
  days.foldl (fun lc d => bumpLabel lc d.sentiment_label) ⟨0, 0, 0⟩

/-- Python `emotion_counts[e] = emotion_counts.get(e, 0) + 1` on an insertion-ordered
dictionary (modelled as an association list; a new key is appended at the
end, as Python dicts preserve insertion order). -/
def bumpEmotion (acc : List (Emotion × Nat)) (e : Emotion) : List (Emotion × Nat) :=
  if acc.any (fun p => p.1 = e) then
    acc.map (fun p => if p.1 = e then (p.1, p.2 + 1) else p)
  else acc ++ [(e, 1)]

/-- The `emotion_counts` tally: for each day in order, for each tag of
`dominant_emotions` in order, bump its count. -/
def tallyEmotions (days : List DayEmotion) : List (Emotion × Nat) :=
  days.foldl (fun acc d => d.dominant_emotions.foldl bumpEmotion acc) []

/-- Stable insertion from the left: the new element `x` goes after every
earlier element `y` with `keep y x` and before the first with `¬ keep y x`.
Folding this over a list is exactly a stable sort, which is the semantics of
Python's `sorted`/`list.sort`. -/
def insertStable (keep : α → α → Bool) (x : α) : List α → List α
  | [] => [x]
  | y :: ys => if keep y x then y :: insertStable keep x ys else x :: y :: ys

/-- Stable sort: insert the elements left to right. -/
def sortStable (keep : α → α → Bool) (l : List α) : List α :=
  l.foldl (fun acc x => insertStable keep x acc) []

/-- Python `sorted(emotion_counts.items(), key=lambda x: x[1], reverse=True)`:
a stable descending sort by count, so equal counts keep insertion order
(`keep y x` = the later element `x` stays after `y` = `x.2 <= y.2`). -/
def sortDescByCount (l : List (Emotion × Nat)) : List (Emotion × Nat) :=
  sortStable (fun y x => decide (x.2 ≤ y.2)) l

/-- The summary dictionary built by `summarize`. -/
structure Summary where
  days : Nat
  average_sentiment : ℚ
  average_subjectivity : ℚ
  label_counts : LabelCounts
  trend : Trend
  most_common_emotions : List (Emotion × Nat)
deriving DecidableEq, Repr

/-- Models `summarize(days)`. -/
def summarize (days : List DayEmotion) : Summary :=
  if days = [] then
    ⟨0, 0, 0, ⟨0, 0, 0⟩, .insufficient_data, []⟩
  else
    let n := days.length
    let avg := (days.map (·.sentiment_score)).sum / n
    let avgSubjectivity := (days.map (·.subjectivity)).sum / n
    let trend : Trend :=
      if n ≥ 4 then
        let first := ((days.take (n / 2)).map (·.sentiment_score)).sum / max 1 (n / 2)
        let second := ((days.drop (n / 2)).map (·.sentiment_score)).sum / max 1 (n - n / 2)
        let delta := second - first
        if delta > 12 / 100 then .improving
        else if delta < -(12 / 100) then .declining
        else .stable
      else .stable
    ⟨n, round3 avg, round3 avgSubjectivity, countLabels days, trend,
      (sortDescByCount (tallyEmotions days)).take 3⟩

/-! ### Batch driver (`main`) -/

/-- An element of the `records` array: a JSON mapping or anything else
(`isinstance(rec, dict)` fails → skipped). -/
inductive RawRec where
  | dict (r : Record)
  | nondict

def RawRec.asDict : RawRec → Option Record
  | .dict r => some r
  | .nondict => none

/-- The `records` entry of the input payload: absent, present but not a JSON
array, or an array. -/
inductive PayloadRecords where
  | missing
  | nonlist
  | list (rs : List RawRec)

/-- Models `payload.get("records", [])` followed by the `isinstance(records, list)`
check: an absent key defaults to the empty list; a present non-list value
raises a `ValueError`. -/
def extractRecords : PayloadRecords → Except String (List RawRec)
  | .missing => .ok []
  | .nonlist => .error "records must be a list"
  | .list rs => .ok rs

/-- Python `analyzed.sort(key=lambda d: d.date)`: stable ascending sort by
the date string (lexicographic on code points). -/
def sortByDate (l : List DayEmotion) : List DayEmotion :=
  sortStable (fun y x => lexLe y.date.data x.date.data) l

/-- The analysis loop of `main` followed by the date sort: skip non-mapping
elements, analyse each record, sort ascending by date.  This list is the
`timeline` of the output. -/
def pipeline (translate : List Char → Except Unit (List Char))
    (score : List Char → ℚ × ℚ) (rs : List RawRec) : List DayEmotion :=
  sortByDate ((rs.filterMap RawRec.asDict).map
    (fun r => (analyzeRecord translate score r).1))

/-- Models `main` after the payload is parsed: extract `records` (a fatal error if
present and not a list), analyse, sort, summarise.  An `Except.error` models
a raised exception: the run aborts and no output file is written.  On success
the written document holds the summary and the timeline. -/
def runMain (translate : List Char → Except Unit (List Char))
    (score : List Char → ℚ × ℚ) (payload : PayloadRecords) :
    Except String (Summary × List DayEmotion) := do
  let recs ← extractRecords payload
  let analyzed := pipeline translate score recs
  return (summarize analyzed, analyzed)

/-! ### Auxiliary definitions used to state the claims -/

/-- Arithmetic mean of the sentiment scores of a list of days (used to state
the trend claim; the summariser divides by `max 1 _`, the claim by the exact
half length). -/
def meanScore (l : List DayEmotion) : ℚ :=
  (l.map (·.sentiment_score)).sum / l.length

/-- The scan sequence of emotion tags: all days' `dominant_emotions`
concatenated in day order. -/
def scanEmotions (days : List DayEmotion) : List Emotion :=
  (days.map (·.dominant_emotions)).flatten

/-- First occurrences, in order, of the elements of a list that are not in
`seen` (used to describe the key order of the insertion-ordered tally). -/
def dedupKeepFirst (seen : List Emotion) : List Emotion → List Emotion
  | [] => []
  | x :: l =>
    if x ∈ seen then dedupKeepFirst seen l
    else x :: dedupKeepFirst (seen ++ [x]) l

/-! ## Supporting lemmas -/

theorem pyRound_mem (q : ℚ) : pyRound q = ⌊q⌋ ∨ pyRound q = ⌊q⌋ + 1 := by
  simp only [pyRound]; split_ifs <;> simp

theorem floor_le_pyRound (q : ℚ) : ⌊q⌋ ≤ pyRound q := by
  rcases pyRound_mem q with h | h <;> omega

theorem pyRound_le_ceil (q : ℚ) : pyRound q ≤ ⌈q⌉ := by
  simp only [pyRound]
  split_ifs with h1 h2 h3
  · exact Int.floor_le_ceil q
  · have : (⌊q⌋ : ℚ) < q := by linarith
    have := Int.lt_ceil.mpr this
    omega
  · exact Int.floor_le_ceil q
  · have : (⌊q⌋ : ℚ) < q := by
      by_contra hc
      push_neg at hc
      have := Int.floor_le q
      have : q - ⌊q⌋ = 0 := by
        have : (⌊q⌋ : ℚ) = q := le_antisymm (Int.floor_le q) hc
        linarith
      linarith
    have := Int.lt_ceil.mpr this
    omega

theorem round3_le_of_le {q : ℚ} {m : ℤ} (h : q ≤ m) : round3 q ≤ m := by
  unfold round3
  rw [div_le_iff₀ (by norm_num : (0 : ℚ) < 1000)]
  have h1 : pyRound (q * 1000) ≤ ⌈q * 1000⌉ := pyRound_le_ceil _
  have h2 : ⌈q * 1000⌉ ≤ ⌈(m * 1000 : ℚ)⌉ := Int.ceil_le_ceil (by nlinarith)
  have h3 : ⌈(m * 1000 : ℚ)⌉ = m * 1000 := by
    rw [show ((m : ℚ) * 1000) = ((m * 1000 : ℤ) : ℚ) by push_cast; ring]
    exact Int.ceil_intCast _
  have : pyRound (q * 1000) ≤ m * 1000 := by omega
  calc (pyRound (q * 1000) : ℚ) ≤ ((m * 1000 : ℤ) : ℚ) := by exact_mod_cast this
    _ = m * 1000 := by push_cast; ring

theorem le_round3_of_le {q : ℚ} {m : ℤ} (h : (m : ℚ) ≤ q) : (m : ℚ) ≤ round3 q := by
  unfold round3
  rw [le_div_iff₀ (by norm_num : (0 : ℚ) < 1000)]
  have h1 : ⌊(m * 1000 : ℚ)⌋ ≤ ⌊q * 1000⌋ := Int.floor_le_floor (by nlinarith)
  have h2 : ⌊q * 1000⌋ ≤ pyRound (q * 1000) := floor_le_pyRound _
  have h3 : ⌊(m * 1000 : ℚ)⌋ = m * 1000 := by
    rw [show ((m : ℚ) * 1000) = ((m * 1000 : ℤ) : ℚ) by push_cast; ring]
    exact Int.floor_intCast _
  have : m * 1000 ≤ pyRound (q * 1000) := by omega
  calc (m : ℚ) * 1000 = ((m * 1000 : ℤ) : ℚ) := by push_cast; ring
    _ ≤ pyRound (q * 1000) := by exact_mod_cast this

theorem clampPolarity_bounds (q : ℚ) : -1 ≤ clampPolarity q ∧ clampPolarity q ≤ 1 := by
  unfold clampPolarity
  constructor
  · exact le_max_left _ _
  · exact max_le (by norm_num) (min_le_left _ _)

theorem clampSubjectivity_bounds (q : ℚ) :
    0 ≤ clampSubjectivity q ∧ clampSubjectivity q ≤ 1 := by
  unfold clampSubjectivity
  constructor
  · exact le_max_left _ _
  · exact max_le (by norm_num) (min_le_left _ _)

/-- On a non-empty record, `analyze_record` scores the translated text (the
original text if translation raised), invokes the scorer once, and invokes the
translator as many times as the translation attempt did. -/
theorem analyzeRecord_nonempty (t : List Char → Except Unit (List Char))
    (sc : List Char → ℚ × ℚ) (r : Record) (h : joinedOf r ≠ []) :
    analyzeRecord t sc r
      = (directScore sc (getDate r) (translatedText t (joinedOf r)),
         (translateJaToEn t (joinedOf r)).2, 1) := by
  rcases htr : translateJaToEn t (joinedOf r) with ⟨tr, n⟩
  rcases tr with e | x
  · rcases hsc : sc (joinedOf r) with ⟨p, s⟩
    simp [analyzeRecord, directScore, translatedText, h, htr, hsc]
  · rcases hsc : sc x with ⟨p, s⟩
    simp [analyzeRecord, directScore, translatedText, h, htr, hsc]

theorem analyzeRecord_date (t : List Char → Except Unit (List Char))
    (sc : List Char → ℚ × ℚ) (r : Record) :
    (analyzeRecord t sc r).1.date = getDate r := by
  by_cases h : joinedOf r = []
  · simp [analyzeRecord, h]
  · rw [analyzeRecord_nonempty t sc r h]
    rcases hsc : sc (translatedText t (joinedOf r)) with ⟨p, s⟩
    simp [directScore, hsc]

theorem insertStable_perm (keep : α → α → Bool) (x : α) (l : List α) :
    List.Perm (insertStable keep x l) (x :: l) := by
  induction l with
  | nil => exact .refl _
  | cons y ys ih =>
    by_cases hk : keep y x
    · simp only [insertStable, if_pos hk]
      exact (ih.cons y).trans (List.Perm.swap x y ys)
    · simp only [insertStable, if_neg hk]
      exact .refl _

theorem foldl_insertStable_perm (keep : α → α → Bool) :
    ∀ (l acc : List α),
      List.Perm (l.foldl (fun acc x => insertStable keep x acc) acc) (acc ++ l) := by
  intro l
  induction l with
  | nil => intro acc; simp
  | cons x xs ih =>
    intro acc
    simp only [List.foldl_cons]
    have h1 := ih (insertStable keep x acc)
    have h2 : List.Perm (insertStable keep x acc ++ xs) ((x :: acc) ++ xs) :=
      (insertStable_perm keep x acc).append_right xs
    exact h1.trans (h2.trans List.perm_middle.symm)

theorem sortStable_perm (keep : α → α → Bool) (l : List α) :
    List.Perm (sortStable keep l) l := by
  have h := foldl_insertStable_perm keep l []
  rw [List.nil_append] at h
  exact h

theorem chunkLoop_flatten (c : Nat) : ∀ (n : Nat) (text : List Char),
    text.length ≤ n → (chunkLoop c text).flatten = text := by
  intro n
  induction n with
  | zero =>
    intro text h
    have : text = [] := List.length_eq_zero.mp (Nat.le_zero.mp h)
    subst this
    simp [chunkLoop]
  | succ n ih =>
    intro text h
    match text with
    | [] => simp [chunkLoop]
    | a :: rest =>
      rw [chunkLoop]
      simp only [List.flatten_cons]
      rw [ih _ (by
        simp only [List.length_drop, List.length_cons]
        simp only [List.length_cons] at h
        omega)]
      exact List.take_append_drop _ _

theorem chunkLoop_length_le (c : Nat) : ∀ (n : Nat) (text : List Char),
    text.length ≤ n → ∀ ch ∈ chunkLoop c text, ch.length ≤ c + 1 := by
  intro n
  induction n with
  | zero =>
    intro text h
    have : text = [] := List.length_eq_zero.mp (Nat.le_zero.mp h)
    subst this
    simp [chunkLoop]
  | succ n ih =>
    intro text h
    match text with
    | [] => simp [chunkLoop]
    | a :: rest =>
      rw [chunkLoop]
      intro ch hch
      rcases List.mem_cons.mp hch with hhd | htl
      · subst hhd
        simp only [List.length_take]
        exact Nat.min_le_left _ _
      · exact ih _ (by
          simp only [List.length_drop, List.length_cons]
          simp only [List.length_cons] at h
          omega) ch htl

/-! ## Claim theorems -/

/-- C4: the sentiment label is a function of clamped polarity `p` alone:
`p >= 0.2` yields positive, `p <= -0.2` yields negative, and every `p`
strictly between `-0.2` and `0.2` yields neutral; the boundary values `0.2`
and `-0.2` themselves are not neutral (`0.1999` is). -/
theorem claim_C4 :
    (∀ p : ℚ, 2 / 10 ≤ p → toLabel p = .positive)
    ∧ (∀ p : ℚ, p ≤ -(2 / 10) → toLabel p = .negative)
    ∧ (∀ p : ℚ, -(2 / 10) < p → p < 2 / 10 → toLabel p = .neutral)
    ∧ toLabel (2 / 10) = .positive
    ∧ toLabel (-(2 / 10)) = .negative
    ∧ toLabel (1999 / 10000) = .neutral := by
  refine ⟨?_, ?_, ?_, by norm_num [toLabel], by norm_num [toLabel], by norm_num [toLabel]⟩
    <;> intro p
  · intro h; unfold toLabel; split_ifs <;> first | rfl | linarith
  · intro h; unfold toLabel; split_ifs <;> first | rfl | linarith
  · intro h1 h2; unfold toLabel; split_ifs <;> first | rfl | linarith

/-- Witness for C4 at a concrete input. -/
theorem claim_C4_witness : (2 : ℚ) / 10 ≤ 3 / 10 ∧ toLabel (3 / 10) = .positive :=
  ⟨by norm_num, claim_C4.1 (3 / 10) (by norm_num)⟩

/-- C3: the dominant-emotions cascade, first match winning, on clamped
polarity `p` and subjectivity `s`; plus the three quoted boundary examples
(`p=0.45, s=0.45`, `p=0.44, s=0.9`, and `p=0.18` which is labelled neutral
yet classified `[calm, confidence]`). -/
theorem claim_C3 :
    (∀ p s : ℚ, 45 / 100 ≤ p → 45 / 100 ≤ s → toEmotions p s = [.joy, .confidence])
    ∧ (∀ p s : ℚ, 45 / 100 ≤ p → s < 45 / 100 → toEmotions p s = [.calm, .confidence])
    ∧ (∀ p s : ℚ, p < 45 / 100 → 15 / 100 ≤ p → toEmotions p s = [.calm, .confidence])
    ∧ (∀ p s : ℚ, p ≤ -(45 / 100) → 45 / 100 ≤ s → toEmotions p s = [.frustration, .anxiety])
    ∧ (∀ p s : ℚ, p ≤ -(45 / 100) → s < 45 / 100 → toEmotions p s = [.anxiety, .calm])
    ∧ (∀ p s : ℚ, -(45 / 100) < p → p ≤ -(15 / 100) → toEmotions p s = [.anxiety, .calm])
    ∧ (∀ p s : ℚ, -(15 / 100) < p → p < 15 / 100 → toEmotions p s = [.calm])
    ∧ toEmotions (45 / 100) (45 / 100) = [.joy, .confidence]
    ∧ toEmotions (44 / 100) (9 / 10) = [.calm, .confidence]
    ∧ (∀ s : ℚ, toEmotions (18 / 100) s = [.calm, .confidence])
    ∧ toLabel (18 / 100) = .neutral := by
  refine ⟨?_, ?_, ?_, ?_, ?_, ?_, ?_, by norm_num [toEmotions],
      by norm_num [toEmotions], fun s => by norm_num [toEmotions], by norm_num [toLabel]⟩
    <;> intro p s
  · intro h1 h2; unfold toEmotions; split_ifs <;> first | rfl | linarith
  · intro h1 h2; unfold toEmotions; split_ifs <;> first | rfl | linarith
  · intro h1 h2; unfold toEmotions; split_ifs <;> first | rfl | linarith
  · intro h1 h2; unfold toEmotions; split_ifs <;> first | rfl | linarith
  · intro h1 h2; unfold toEmotions; split_ifs <;> first | rfl | linarith
  · intro h1 h2; unfold toEmotions; split_ifs <;> first | rfl | linarith
  · intro h1 h2; unfold toEmotions; split_ifs <;> first | rfl | linarith

/-- Witness for C3 at a concrete input. -/
theorem claim_C3_witness :
    (45 : ℚ) / 100 ≤ 1 / 2 ∧ toEmotions (1 / 2) (1 / 2) = [.joy, .confidence] :=
  ⟨by norm_num, claim_C3.1 (1 / 2) (1 / 2) (by norm_num) (by norm_num)⟩

/-- C2: the trend of a summary of `n` days is `insufficient_data` exactly for
`n = 0`, `stable` for `1 <= n <= 3`, and for `n >= 4` it is determined by
`delta`, the mean sentiment of the second half (`drop (n / 2)`) minus the mean
sentiment of the first half (`take (n / 2)`): `improving` when
`delta > 0.12`, `declining` when `delta < -0.12`, `stable` otherwise. -/
theorem claim_C2 (days : List DayEmotion) :
    (summarize days).trend =
      if days.length = 0 then Trend.insufficient_data
      else if days.length < 4 then Trend.stable
      else
        if meanScore (days.drop (days.length / 2))
            - meanScore (days.take (days.length / 2)) > 12 / 100 then Trend.improving
        else if meanScore (days.drop (days.length / 2))
            - meanScore (days.take (days.length / 2)) < -(12 / 100) then Trend.declining
        else Trend.stable := by
  rcases eq_or_ne days [] with hd | hd
  · subst hd; simp [summarize]
  · have h0 : days.length ≠ 0 := fun h => hd (List.length_eq_zero.mp h)
    rw [summarize, if_neg hd]
    by_cases h4 : days.length ≥ 4
    · have hmax1 : max 1 (days.length / 2) = days.length / 2 := by omega
      have hmax2 : max 1 (days.length - days.length / 2) = days.length - days.length / 2 := by
        omega
      have hlt : (days.take (days.length / 2)).length = days.length / 2 := by
        rw [List.length_take]; omega
      have hld : (days.drop (days.length / 2)).length = days.length - days.length / 2 :=
        List.length_drop _ _
      rw [if_neg h0, if_neg (by omega : ¬ days.length < 4)]
      simp only [if_pos h4, meanScore, hlt, hld, hmax1, hmax2]
    · rw [if_neg h0, if_pos (by omega : days.length < 4)]
      simp only [if_neg h4]

/-- C1 counterexample: the claim asserts that every payload whose `records`
key is absent makes the run fail, but `payload.get("records", [])` defaults
the missing key to the empty list, so the run succeeds and writes the
zero-day summary. -/
theorem claim_C1_counterexample :
    runMain (fun _ => .error ()) (fun _ => (0, 0)) .missing
      = .ok (⟨0, 0, 0, ⟨0, 0, 0⟩, .insufficient_data, []⟩, []) := rfl

/-- C1 amended: a payload whose `records` field is present but not a sequence
aborts the whole run with an error (no output is written), for every choice of
capabilities; a payload whose `records` key is absent is instead treated as an
empty sequence — the run succeeds and produces the zero-day summary with an
empty timeline. -/
theorem claim_C1_amended :
    (∀ (t : List Char → Except Unit (List Char)) (sc : List Char → ℚ × ℚ),
      runMain t sc .nonlist = .error "records must be a list")
    ∧ (∀ (t : List Char → Except Unit (List Char)) (sc : List Char → ℚ × ℚ),
      runMain t sc .missing
        = .ok (⟨0, 0, 0, ⟨0, 0, 0⟩, .insufficient_data, []⟩, [])) :=
  ⟨fun _ _ => rfl, fun _ _ => rfl⟩

/-- C6: a record whose four text fields normalise and join to an
all-whitespace string (so the stripped join is empty) yields the constant
`DayEmotion` (score 0, label neutral, subjectivity 0, emotions `[calm]`) and
makes zero translator invocations and zero scorer invocations, regardless of
the capabilities. -/
theorem claim_C6 (t : List Char → Except Unit (List Char))
    (sc : List Char → ℚ × ℚ) (r : Record) (h : joinedOf r = []) :
    analyzeRecord t sc r = (⟨getDate r, 0, .neutral, 0, [.calm]⟩, 0, 0) := by
  simp [analyzeRecord, h]

/-- Witness for C6: a record with one absent, one null, and one empty-string
field, under an always-failing translator and a non-neutral scorer. -/
theorem claim_C6_witness :
    joinedOf ⟨none, .absent, .null, .str [], .absent⟩ = []
    ∧ analyzeRecord (fun _ => .error ()) (fun _ => (1, 1))
        ⟨none, .absent, .null, .str [], .absent⟩
      = (⟨"", 0, .neutral, 0, [.calm]⟩, 0, 0) :=
  ⟨by decide, claim_C6 _ _ _ (by decide)⟩

/-- C7: for a non-empty record, if the whole-text translation attempt fails
(the adapter returns an exception), analysis still completes and the result is
exactly the `DayEmotion` obtained by scoring the original untranslated text
directly. -/
theorem claim_C7 (t : List Char → Except Unit (List Char))
    (sc : List Char → ℚ × ℚ) (r : Record) (h1 : joinedOf r ≠ [])
    (h2 : (translateJaToEn t (joinedOf r)).1 = .error ()) :
    (analyzeRecord t sc r).1 = directScore sc (getDate r) (joinedOf r) := by
  rw [analyzeRecord_nonempty t sc r h1]
  have : translatedText t (joinedOf r) = joinedOf r := by
    unfold translatedText
    rw [h2]
  rw [this]

/-- Witness for C7: a concrete non-empty record under an always-failing
translator. -/
theorem claim_C7_witness :
    joinedOf ⟨some "d", .str ("hi".data), .absent, .absent, .absent⟩ ≠ []
    ∧ (analyzeRecord (fun _ => .error ()) (fun _ => (1 / 2, 1 / 2))
        ⟨some "d", .str ("hi".data), .absent, .absent, .absent⟩).1
      = directScore (fun _ => (1 / 2, 1 / 2)) "d"
          (joinedOf ⟨some "d", .str ("hi".data), .absent, .absent, .absent⟩) :=
  ⟨by decide, claim_C7 _ _ _ (by decide) (by rfl)⟩

/-- C9: for every non-empty record and arbitrary raw scorer output, the stored
`sentiment_score` lies in `[-1, 1]` and the stored `subjectivity` in `[0, 1]`;
both are the 3-decimal rounding of the clamped raw values (in particular they
are integer multiples of `1/1000`), while the label and the dominant emotions
are computed from the clamped values before rounding. -/
theorem claim_C9 (t : List Char → Except Unit (List Char))
    (sc : List Char → ℚ × ℚ) (r : Record) (h : joinedOf r ≠ []) :
    (-1 ≤ (analyzeRecord t sc r).1.sentiment_score
      ∧ (analyzeRecord t sc r).1.sentiment_score ≤ 1)
    ∧ (0 ≤ (analyzeRecord t sc r).1.subjectivity
      ∧ (analyzeRecord t sc r).1.subjectivity ≤ 1)
    ∧ (∃ k : ℤ, (analyzeRecord t sc r).1.sentiment_score = k / 1000)
    ∧ (∃ k : ℤ, (analyzeRecord t sc r).1.subjectivity = k / 1000)
    ∧ (analyzeRecord t sc r).1.sentiment_score
        = round3 (clampPolarity (sc (translatedText t (joinedOf r))).1)
    ∧ (analyzeRecord t sc r).1.subjectivity
        = round3 (clampSubjectivity (sc (translatedText t (joinedOf r))).2)
    ∧ (analyzeRecord t sc r).1.sentiment_label
        = toLabel (clampPolarity (sc (translatedText t (joinedOf r))).1)
    ∧ (analyzeRecord t sc r).1.dominant_emotions
        = toEmotions (clampPolarity (sc (translatedText t (joinedOf r))).1)
            (clampSubjectivity (sc (translatedText t (joinedOf r))).2) := by
  rw [analyzeRecord_nonempty t sc r h]
  rcases hsc : sc (translatedText t (joinedOf r)) with ⟨p, s⟩
  have hp := clampPolarity_bounds p
  have hs := clampSubjectivity_bounds s
  refine ⟨⟨?_, ?_⟩, ⟨?_, ?_⟩, ⟨pyRound (clampPolarity p * 1000), ?_⟩,
      ⟨pyRound (clampSubjectivity s * 1000), ?_⟩, ?_, ?_, ?_, ?_⟩
    <;> simp [directScore, hsc]
  · exact_mod_cast le_round3_of_le (m := -1) (by exact_mod_cast hp.1)
  · exact_mod_cast round3_le_of_le (m := 1) (by exact_mod_cast hp.2)
  · exact_mod_cast le_round3_of_le (m := 0) (by exact_mod_cast hs.1)
  · exact_mod_cast round3_le_of_le (m := 1) (by exact_mod_cast hs.2)
  · rfl
  · rfl

/-- Witness for C9: a concrete record under a scorer that returns values far
outside the nominal ranges, so the clamp is exercised. -/
theorem claim_C9_witness :
    joinedOf ⟨some "d", .str ("hi".data), .absent, .absent, .absent⟩ ≠ []
    ∧ -1 ≤ (analyzeRecord (fun c => .ok c) (fun _ => (7, -9))
        ⟨some "d", .str ("hi".data), .absent, .absent, .absent⟩).1.sentiment_score :=
  ⟨by decide,
    (claim_C9 (fun c => .ok c) (fun _ => (7, -9))
      ⟨some "d", .str ("hi".data), .absent, .absent, .absent⟩ (by decide)).1.1⟩

/-- C5: for every string and positive maximum chunk length, the chunks
concatenate back to the original string, each chunk is no longer than the
maximum, and a string already within the limit (including the empty string)
yields exactly the single chunk equal to the string itself. -/
theorem claim_C5 (text : List Char) (csize : Nat) (h : 1 ≤ csize) :
    (chunkText text csize).flatten = text
    ∧ (∀ ch ∈ chunkText text csize, ch.length ≤ csize)
    ∧ (text.length ≤ csize → chunkText text csize = [text]) := by
  by_cases hle : text.length ≤ csize
  · refine ⟨?_, ?_, fun _ => ?_⟩ <;> simp [chunkText, hle]
  · rcases csize with _ | c
    · omega
    · simp only [chunkText, if_neg hle]
      exact ⟨chunkLoop_flatten c text.length text le_rfl,
        chunkLoop_length_le c text.length text le_rfl,
        fun hc => absurd hc hle⟩

/-- Witness for C5 on a concrete string and chunk size. -/
theorem claim_C5_witness :
    1 ≤ 2 ∧ (chunkText ("abcde".data) 2).flatten = "abcde".data :=
  ⟨by decide, (claim_C5 ("abcde".data) 2 (by decide)).1⟩

/-- C10: record analysis is total on falsy field values: a text field that is
present but null (or an empty string) is treated exactly as an absent field;
the analysis of a record depends on its fields only through their
normalisation and on its date; a record with no `date` field produces a
`DayEmotion` whose date is the empty string; and every mapping element of the
records list appears (analysed) in the timeline. -/
theorem claim_C10 :
    (∀ v : FieldVal, v = .null ∨ v = .str [] → normField v = normField .absent)
    ∧ (∀ (t : List Char → Except Unit (List Char)) (sc : List Char → ℚ × ℚ)
        (r₁ r₂ : Record), r₁.date = r₂.date →
        normField r₁.experience = normField r₂.experience →
        normField r₁.reflection = normField r₂.reflection →
        normField r₁.abstraction = normField r₂.abstraction →
        normField r₁.next_action = normField r₂.next_action →
        analyzeRecord t sc r₁ = analyzeRecord t sc r₂)
    ∧ (∀ (t : List Char → Except Unit (List Char)) (sc : List Char → ℚ × ℚ)
        (r : Record), r.date = none → (analyzeRecord t sc r).1.date = "")
    ∧ (∀ (t : List Char → Except Unit (List Char)) (sc : List Char → ℚ × ℚ)
        (rs : List RawRec) (r : Record), RawRec.dict r ∈ rs →
        (analyzeRecord t sc r).1 ∈ pipeline t sc rs) := by
  refine ⟨?_, ?_, ?_, ?_⟩
  · rintro v (rfl | rfl) <;> rfl
  · intro t sc r₁ r₂ hd h1 h2 h3 h4
    have hj : joinedOf r₁ = joinedOf r₂ := by unfold joinedOf; rw [h1, h2, h3, h4]
    have hgd : getDate r₁ = getDate r₂ := by unfold getDate; rw [hd]
    simp only [analyzeRecord, hj, hgd]
  · intro t sc r hd
    rw [analyzeRecord_date]
    unfold getDate
    rw [hd]
    rfl
  · intro t sc rs r hr
    unfold pipeline sortByDate
    exact ((sortStable_perm _ _).mem_iff).mpr
      (List.mem_map_of_mem _ (List.mem_filterMap.mpr ⟨.dict r, hr, rfl⟩))

/-- Witness for C10: a record with no date field yields the empty date. -/
theorem claim_C10_witness :
    (analyzeRecord (fun c => .ok c) (fun _ => (0, 0))
      ⟨none, .absent, .absent, .absent, .absent⟩).1.date = "" :=
  claim_C10.2.2.1 _ _ _ rfl

/-! ## Lemmas on the emotion tally and its stable descending sort -/

theorem bumpEmotion_mem_cond (acc : List (Emotion × Nat)) (x : Emotion) :
    (acc.any (fun p => p.1 = x) = true) ↔ x ∈ acc.map Prod.fst := by
  simp only [List.any_eq_true, List.mem_map, decide_eq_true_eq]

theorem bumpEmotion_keys (acc : List (Emotion × Nat)) (x : Emotion) :
    (bumpEmotion acc x).map Prod.fst
      = if x ∈ acc.map Prod.fst then acc.map Prod.fst
        else acc.map Prod.fst ++ [x] := by
  unfold bumpEmotion
  by_cases hx : x ∈ acc.map Prod.fst
  · rw [if_pos ((bumpEmotion_mem_cond acc x).mpr hx), if_pos hx, List.map_map]
    exact List.map_congr_left (fun p _ => by by_cases h : p.1 = x <;> simp [h])
  · rw [if_neg (fun hc => hx ((bumpEmotion_mem_cond acc x).mp hc)), if_neg hx]
    simp

theorem bumpEmotion_keys_nodup (acc : List (Emotion × Nat)) (x : Emotion)
    (h1 : (acc.map Prod.fst).Nodup) :
    ((bumpEmotion acc x).map Prod.fst).Nodup := by
  rw [bumpEmotion_keys]
  by_cases hx : x ∈ acc.map Prod.fst
  · rwa [if_pos hx]
  · rw [if_neg hx, List.nodup_append]
    exact ⟨h1, List.nodup_singleton x,
      fun a ha hax => hx (by rwa [List.mem_singleton.mp hax] at ha)⟩

theorem bumpEmotion_count (x : Emotion) (seen : List Emotion)
    (acc : List (Emotion × Nat))
    (h2 : ∀ p ∈ acc, p.2 = seen.count p.1)
    (h3 : ∀ e : Emotion, e ∈ acc.map Prod.fst ↔ e ∈ seen) :
    ∀ p ∈ bumpEmotion acc x, p.2 = (seen ++ [x]).count p.1 := by
  unfold bumpEmotion
  by_cases hx : x ∈ acc.map Prod.fst
  · rw [if_pos ((bumpEmotion_mem_cond acc x).mpr hx)]
    intro p hp
    rcases List.mem_map.mp hp with ⟨q, hq, rfl⟩
    have hq2 := h2 q hq
    by_cases hqx : q.1 = x
    · simp [hqx, List.count_append, hq2]
    · simp [hqx, List.count_append, hq2, List.count_singleton, Ne.symm hqx]
  · rw [if_neg (fun hc => hx ((bumpEmotion_mem_cond acc x).mp hc))]
    intro p hp
    rcases List.mem_append.mp hp with hp' | hp'
    · have hpx : p.1 ≠ x := fun he =>
        hx (he ▸ List.mem_map.mpr ⟨p, hp', rfl⟩)
      have hcnt : List.count p.1 [x] = 0 :=
        List.count_eq_zero_of_not_mem (by simpa using hpx)
      simp [List.count_append, h2 p hp', hcnt]
    · exact (List.mem_singleton.mp hp') ▸ (by
        have hxs : x ∉ seen := fun hs => hx ((h3 x).mpr hs)
        simp [List.count_append, List.count_eq_zero_of_not_mem hxs])

theorem bumpEmotion_mem (x : Emotion) (seen : List Emotion)
    (acc : List (Emotion × Nat))
    (h3 : ∀ e : Emotion, e ∈ acc.map Prod.fst ↔ e ∈ seen) :
    ∀ e : Emotion, e ∈ (bumpEmotion acc x).map Prod.fst ↔ e ∈ seen ++ [x] := by
  intro e
  rw [bumpEmotion_keys, List.mem_append, List.mem_singleton]
  by_cases hx : x ∈ acc.map Prod.fst
  · rw [if_pos hx]
    constructor
    · intro he; exact Or.inl ((h3 e).mp he)
    · rintro (he | rfl)
      · exact (h3 e).mpr he
      · exact hx
  · rw [if_neg hx, List.mem_append, List.mem_singleton, h3 e]

/-- Invariant of the tally fold: unique keys, each key's stored count is its
occurrence count in the processed prefix, and the key set equals the set of
processed tags. -/
theorem foldl_bump_inv : ∀ (l seen : List Emotion) (acc : List (Emotion × Nat)),
    (acc.map Prod.fst).Nodup →
    (∀ p ∈ acc, p.2 = seen.count p.1) →
    (∀ e : Emotion, e ∈ acc.map Prod.fst ↔ e ∈ seen) →
    ((l.foldl bumpEmotion acc).map Prod.fst).Nodup
    ∧ (∀ p ∈ l.foldl bumpEmotion acc, p.2 = (seen ++ l).count p.1)
    ∧ (∀ e : Emotion, e ∈ (l.foldl bumpEmotion acc).map Prod.fst ↔ e ∈ seen ++ l) := by
  intro l
  induction l with
  | nil =>
    intro seen acc h1 h2 h3
    simp only [List.foldl_nil, List.append_nil]
    exact ⟨h1, h2, h3⟩
  | cons x xs ih =>
    intro seen acc h1 h2 h3
    have k1 := bumpEmotion_keys_nodup acc x h1
    have k2 := bumpEmotion_count x seen acc h2 h3
    have k3 := bumpEmotion_mem x seen acc h3
    have h := ih (seen ++ [x]) (bumpEmotion acc x) k1 k2 k3
    simpa [List.append_assoc] using h

/-- The key order of the tally fold is first-occurrence order. -/
theorem foldl_bump_keys : ∀ (l : List Emotion) (acc : List (Emotion × Nat)),
    (l.foldl bumpEmotion acc).map Prod.fst
      = acc.map Prod.fst ++ dedupKeepFirst (acc.map Prod.fst) l := by
  intro l
  induction l with
  | nil => intro acc; simp [dedupKeepFirst]
  | cons x xs ih =>
    intro acc
    simp only [List.foldl_cons]
    rw [ih (bumpEmotion acc x), bumpEmotion_keys]
    by_cases hx : x ∈ acc.map Prod.fst
    · rw [if_pos hx]
      simp only [dedupKeepFirst]
      rw [if_pos hx]
    · rw [if_neg hx]
      simp only [dedupKeepFirst]
      rw [if_neg hx]
      simp [List.append_assoc]

theorem mem_dedupKeepFirst : ∀ (l seen : List Emotion) (x : Emotion),
    x ∈ dedupKeepFirst seen l → x ∉ seen := by
  intro l
  induction l with
  | nil => intro seen x h; simp [dedupKeepFirst] at h
  | cons y ys ih =>
    intro seen x h
    simp only [dedupKeepFirst] at h
    by_cases hy : y ∈ seen
    · rw [if_pos hy] at h
      exact ih seen x h
    · rw [if_neg hy] at h
      rcases List.mem_cons.mp h with rfl | h'
      · exact hy
      · intro hx
        exact ih (seen ++ [y]) x h' (List.mem_append_left _ hx)

/-- Two distinct elements appearing in this order in the first-occurrence
list occur in that order in the underlying scan. -/
theorem dedup_sublist_indexOf : ∀ (l seen : List Emotion) (a b : Emotion),
    List.Sublist [a, b] (dedupKeepFirst seen l) →
    l.indexOf a < l.indexOf b := by
  intro l
  induction l with
  | nil =>
    intro seen a b h
    simp [dedupKeepFirst] at h
  | cons y ys ih =>
    intro seen a b h
    simp only [dedupKeepFirst] at h
    by_cases hy : y ∈ seen
    · rw [if_pos hy] at h
      have hlt := ih seen a b h
      have ha : a ≠ y := fun he =>
        (he ▸ mem_dedupKeepFirst ys seen a (h.subset (by simp))) hy
      have hb : b ≠ y := fun he =>
        (he ▸ mem_dedupKeepFirst ys seen b (h.subset (by simp))) hy
      rw [List.indexOf_cons_ne ys (Ne.symm ha), List.indexOf_cons_ne ys (Ne.symm hb)]
      omega
    · rw [if_neg hy] at h
      cases h with
      | cons _ h' =>
        have ha : a ∉ seen ++ [y] :=
          mem_dedupKeepFirst ys (seen ++ [y]) a (h'.subset (by simp))
        have hb : b ∉ seen ++ [y] :=
          mem_dedupKeepFirst ys (seen ++ [y]) b (h'.subset (by simp))
        have hay : a ≠ y := fun he => ha (by simp [he])
        have hby : b ≠ y := fun he => hb (by simp [he])
        have hlt := ih (seen ++ [y]) a b h'
        rw [List.indexOf_cons_ne ys (Ne.symm hay), List.indexOf_cons_ne ys (Ne.symm hby)]
        omega
      | cons₂ _ h' =>
        have hb : b ∉ seen ++ [y] :=
          mem_dedupKeepFirst ys (seen ++ [y]) b (h'.subset (by simp))
        have hby : b ≠ y := fun he => hb (by simp [he])
        rw [List.indexOf_cons_self, List.indexOf_cons_ne ys (Ne.symm hby)]
        exact Nat.succ_pos _

theorem insertDesc_pairwise (x : Emotion × Nat) (l : List (Emotion × Nat))
    (h : l.Pairwise (fun a b => b.2 ≤ a.2)) :
    (insertStable (fun y x => decide (x.2 ≤ y.2)) x l).Pairwise
      (fun a b => b.2 ≤ a.2) := by
  induction l with
  | nil => simp [insertStable]
  | cons y ys ih =>
    rcases List.pairwise_cons.mp h with ⟨hy, hys⟩
    by_cases hk : x.2 ≤ y.2
    · simp only [insertStable]
      rw [if_pos (decide_eq_true hk)]
      refine List.pairwise_cons.mpr ⟨?_, ih hys⟩
      intro z hz
      rcases List.mem_cons.mp ((insertStable_perm _ x ys).mem_iff.mp hz) with rfl | hz'
      · exact hk
      · exact hy z hz'
    · simp only [insertStable]
      rw [if_neg (by simpa using hk)]
      refine List.pairwise_cons.mpr ⟨?_, h⟩
      intro z hz
      rcases List.mem_cons.mp hz with rfl | hz'
      · omega
      · have := hy z hz'
        omega

theorem foldl_insertDesc_pairwise : ∀ (l acc : List (Emotion × Nat)),
    acc.Pairwise (fun a b => b.2 ≤ a.2) →
    (l.foldl (fun acc x => insertStable (fun y x => decide (x.2 ≤ y.2)) x acc)
        acc).Pairwise (fun a b => b.2 ≤ a.2) := by
  intro l
  induction l with
  | nil => intro acc h; exact h
  | cons x xs ih =>
    intro acc h
    simp only [List.foldl_cons]
    exact ih _ (insertDesc_pairwise x acc h)

theorem sortDescByCount_pairwise (l : List (Emotion × Nat)) :
    (sortDescByCount l).Pairwise (fun a b => b.2 ≤ a.2) :=
  foldl_insertDesc_pairwise l [] (List.Pairwise.nil)

theorem insertDesc_filter (x : Emotion × Nat) (l : List (Emotion × Nat)) (c : Nat)
    (h : l.Pairwise (fun a b => b.2 ≤ a.2)) :
    (insertStable (fun y x => decide (x.2 ≤ y.2)) x l).filter (fun p => p.2 = c)
      = l.filter (fun p => p.2 = c) ++ if x.2 = c then [x] else [] := by
  induction l with
  | nil => by_cases hx : x.2 = c <;> simp [insertStable, hx]
  | cons y ys ih =>
    rcases List.pairwise_cons.mp h with ⟨hy, hys⟩
    by_cases hk : x.2 ≤ y.2
    · simp only [insertStable]
      rw [if_pos (decide_eq_true hk)]
      by_cases hyc : y.2 = c
      · simp [List.filter_cons, hyc, ih hys]
      · simp [List.filter_cons, hyc, ih hys]
    · simp only [insertStable]
      rw [if_neg (by simpa using hk)]
      by_cases hxc : x.2 = c
      · have hempty : (y :: ys).filter (fun p => p.2 = c) = [] := by
          apply List.filter_eq_nil_iff.mpr
          intro z hz
          have hzy : z.2 ≤ y.2 := by
            rcases List.mem_cons.mp hz with rfl | hz'
            · exact le_refl _
            · exact hy z hz'
          simp only [decide_eq_true_eq]
          omega
        simp [List.filter_cons, hxc, hempty]
      · simp [List.filter_cons, hxc]

theorem foldl_insertDesc_filter : ∀ (l acc : List (Emotion × Nat)) (c : Nat),
    acc.Pairwise (fun a b => b.2 ≤ a.2) →
    (l.foldl (fun acc x => insertStable (fun y x => decide (x.2 ≤ y.2)) x acc)
        acc).filter (fun p => p.2 = c)
      = acc.filter (fun p => p.2 = c) ++ l.filter (fun p => p.2 = c) := by
  intro l
  induction l with
  | nil => intro acc c h; simp
  | cons x xs ih =>
    intro acc c h
    simp only [List.foldl_cons]
    rw [ih _ c (insertDesc_pairwise x acc h), insertDesc_filter x acc c h]
    by_cases hxc : x.2 = c <;> simp [List.filter_cons, hxc, List.append_assoc]

theorem sortDescByCount_filter (l : List (Emotion × Nat)) (c : Nat) :
    (sortDescByCount l).filter (fun p => p.2 = c)
      = l.filter (fun p => p.2 = c) := by
  have h := foldl_insertDesc_filter l [] c List.Pairwise.nil
  simpa using h

/-- When each day's `dominant_emotions` has no duplicates, the number of
occurrences of a tag in the scan equals the number of days containing it. -/
theorem count_scanEmotions : ∀ (days : List DayEmotion),
    (∀ d ∈ days, d.dominant_emotions.Nodup) → ∀ e : Emotion,
    (scanEmotions days).count e
      = days.countP (fun d => e ∈ d.dominant_emotions) := by
  intro days
  induction days with
  | nil => intro _ e; simp [scanEmotions]
  | cons d ds ih =>
    intro hnd e
    have hd := hnd d (List.mem_cons_self _ _)
    have hds : ∀ x ∈ ds, x.dominant_emotions.Nodup :=
      fun x hx => hnd x (List.mem_cons_of_mem _ hx)
    simp only [scanEmotions, List.map_cons, List.flatten_cons, List.count_append,
      List.countP_cons]
    have ihe : (scanEmotions ds).count e
        = ds.countP (fun d => e ∈ d.dominant_emotions) := ih hds e
    rw [show ((List.map (fun d => d.dominant_emotions) ds).flatten).count e
        = (scanEmotions ds).count e from rfl, ihe]
    by_cases he : e ∈ d.dominant_emotions
    · rw [List.count_eq_one_of_mem hd he]
      simp [he]
      omega
    · rw [List.count_eq_zero_of_not_mem he]
      simp [he]

theorem foldl_tally_general : ∀ (days : List DayEmotion) (acc : List (Emotion × Nat)),
    days.foldl (fun acc d => d.dominant_emotions.foldl bumpEmotion acc) acc
      = ((days.map (·.dominant_emotions)).flatten).foldl bumpEmotion acc := by
  intro days
  induction days with
  | nil => intro acc; simp
  | cons d ds ih =>
    intro acc
    simp only [List.foldl_cons, List.map_cons, List.flatten_cons, List.foldl_append]
    exact ih _

theorem tallyEmotions_eq_scan (days : List DayEmotion) :
    tallyEmotions days = (scanEmotions days).foldl bumpEmotion [] :=
  foldl_tally_general days []

theorem most_common_eq (days : List DayEmotion) :
    (summarize days).most_common_emotions
      = (sortDescByCount (tallyEmotions days)).take 3 := by
  by_cases h : days = []
  · subst h; rfl
  · simp [summarize, h]

/-- C8: `most_common_emotions` has at most 3 entries, is ordered by count
descending, each entry's count is the number of days whose
`dominant_emotions` contain the tag (each day's tag list is duplicate-free,
which the classifier guarantees — last conjunct), and entries of equal count
are ordered by first occurrence in the date-ascending scan of the days'
emotions. -/
theorem claim_C8 (days : List DayEmotion)
    (hnd : ∀ d ∈ days, d.dominant_emotions.Nodup) :
    ((summarize days).most_common_emotions).length ≤ 3
    ∧ ((summarize days).most_common_emotions).Pairwise (fun a b => b.2 ≤ a.2)
    ∧ (∀ p ∈ (summarize days).most_common_emotions,
        p.2 = days.countP (fun d => p.1 ∈ d.dominant_emotions))
    ∧ (∀ (a b : Emotion) (c : Nat),
        List.Sublist [(a, c), (b, c)] (summarize days).most_common_emotions →
        (scanEmotions days).indexOf a < (scanEmotions days).indexOf b)
    ∧ (∀ p s : ℚ, (toEmotions p s).Nodup) := by
  rw [most_common_eq]
  have hperm : List.Perm (sortDescByCount (tallyEmotions days)) (tallyEmotions days) :=
    sortStable_perm _ _
  have hinv := foldl_bump_inv (scanEmotions days) [] [] (by simp) (by simp) (by simp)
  rw [← tallyEmotions_eq_scan] at hinv
  simp only [List.nil_append] at hinv
  obtain ⟨hkeysnd, hcounts, hmem⟩ := hinv
  refine ⟨?_, ?_, ?_, ?_, ?_⟩
  · rw [List.length_take]
    exact Nat.min_le_left _ _
  · exact List.Pairwise.sublist (List.take_sublist _ _) (sortDescByCount_pairwise _)
  · intro p hp
    have hp1 : p ∈ sortDescByCount (tallyEmotions days) :=
      (List.take_sublist _ _).subset hp
    have hp2 : p ∈ tallyEmotions days := hperm.subset hp1
    rw [hcounts p hp2, count_scanEmotions days hnd p.1]
  · intro a b c hs
    have h1 : List.Sublist [(a, c), (b, c)] (sortDescByCount (tallyEmotions days)) :=
      hs.trans (List.take_sublist _ _)
    have h2 := h1.filter (fun p => p.2 = c)
    have hfl : ([(a, c), (b, c)] : List (Emotion × Nat)).filter (fun p => p.2 = c)
        = [(a, c), (b, c)] := by simp
    rw [hfl, sortDescByCount_filter] at h2
    have h3 : List.Sublist [(a, c), (b, c)] (tallyEmotions days) :=
      h2.trans (List.filter_sublist _)
    have h4 : List.Sublist [a, b] ((tallyEmotions days).map Prod.fst) := by
      have := h3.map Prod.fst
      simpa using this
    have hkeys := foldl_bump_keys (scanEmotions days) []
    rw [← tallyEmotions_eq_scan] at hkeys
    simp only [List.map_nil, List.nil_append] at hkeys
    rw [hkeys] at h4
    exact dedup_sublist_indexOf (scanEmotions days) [] a b h4
  · intro p s
    unfold toEmotions
    split_ifs <;> decide

/-- Witness for C8 on two concrete days with a tied tag count. -/
theorem claim_C8_witness :
    (∀ d ∈ [(⟨"a", 0, .neutral, 0, [.calm, .confidence]⟩ : DayEmotion),
            ⟨"b", 0, .neutral, 0, [.calm]⟩], d.dominant_emotions.Nodup)
    ∧ ((summarize [(⟨"a", 0, .neutral, 0, [.calm, .confidence]⟩ : DayEmotion),
            ⟨"b", 0, .neutral, 0, [.calm]⟩]).most_common_emotions).length ≤ 3 :=
  ⟨by decide, (claim_C8 _ (by decide)).1⟩

end EmotionTimeline
